import Mathlib

/-!
Verification model of the evtemitter repository.

The definitions below are a shallow embedding of the class
`UntypedEventEmitter` from src/UntypedEventEmitter.ts together with the
runtime behaviour of `ReservedEventEmitter` from src/ReservedEventEmitter.ts.
The platform primitive (`EventTarget` with `addEventListener`,
`removeEventListener` and synchronous `dispatchEvent`) is an external
collaborator of the repository; it is modelled after the WHATWG DOM
standard: an ordered listener list keyed by (type, callback, capture),
duplicate registrations ignored, dispatch iterating a snapshot of the list,
skipping entries removed meanwhile, and removing a `once` entry just before
its invocation.

JS function objects are modelled by the inductive `Callback`: every closure
creation (`detailPasser`, `onceRemover`, the resolver inside `pull`)
consumes a fresh id from a counter in the emitter state, so structural
equality of `Callback` values coincides with JS reference equality of the
corresponding function objects.  User callbacks do not mutate the emitter;
their invocations are recorded in an observation log.
-/

namespace Evtemitter

/-- Event names are plain strings (`EvName` in src/types.ts). -/
abbrev EvName := String

/-- JS values used as the `detail` of a `CustomEvent`. -/
inductive Value
  | undefined
  | str (s : String)
  | num (n : Int)
deriving DecidableEq, Repr

/-- JS function objects handled by the emitter.  `user` is a
caller-supplied callback, `detailPasser` the closure built by
`UntypedEventEmitter.detailPasser`, `onceRemover` the closure built by
`UntypedEventEmitter.onceRemover`, and `pullResolver` the resolver closure
created inside `pull`. -/
inductive Callback
  | user (id : Nat)
  | detailPasser (fid : Nat) (inner : Callback)
  | onceRemover (fid : Nat) (evType : EvName) (inner : Callback)
  | pullResolver (fid : Nat)
deriving DecidableEq, Repr

/-- What a user callback observed when it was invoked: either a full event
(callbacks registered through `addEventListener`) or just the detail
(payload callbacks registered through `on` / `once`). -/
inductive CbArg
  | evArg (name : EvName) (detail : Value)
  | detailArg (detail : Value)
deriving DecidableEq, Repr

/-- An `AddEventListenerOptions` record; absent fields are `false`
(falsy, which is all the code ever reads of them). -/
structure OptRecord where
  once : Bool
  capture : Bool
deriving DecidableEq, Repr

/-- The `options` argument of the registration methods:
`undefined`, a boolean, or a reference to an options object on the heap.
Object references keep JS aliasing observable (claim C10). -/
inductive OptionsArg
  | undefined
  | bool (b : Bool)
  | ref (r : Nat)
deriving DecidableEq, Repr

/-- One entry of the platform `EventTarget` listener list. -/
structure PEntry where
  name : EvName
  callback : Callback
  capture : Bool
  once : Bool
deriving DecidableEq, Repr

/-- The event record built by `createEvent`: a `CustomEvent` with a `type`,
a `detail` and a `cancelable` flag (false for events built by `emit`). -/
structure EventRec where
  name : EvName
  detail : Value
  cancelable : Bool
deriving DecidableEq, Repr

/-- The complete state of one emitter instance:
`target` is the platform listener list, `listeners` the `__listeners__`
map (per name, an insertion-ordered map from user identity to dispatch
wrapper), `heap` the store of options objects, `fresh` the counter
handing out closure ids, `log` the observation log of user-callback
invocations. -/
structure Emitter where
  target : List PEntry
  listeners : List (EvName × List (Callback × Callback))
  heap : List OptRecord
  fresh : Nat
  log : List (Nat × CbArg)
deriving DecidableEq, Repr

/-- A freshly constructed emitter. -/
def initEmitter : Emitter :=
  { target := [], listeners := [], heap := [], fresh := 0, log := [] }

/-- JS `Map.prototype.get`. -/
def mapGet {α β : Type} [DecidableEq α] : List (α × β) → α → Option β
  | [], _ => none
  | (k, v) :: rest, k2 => if k = k2 then some v else mapGet rest k2

/-- JS `Map.prototype.set`: overwrite in place, else append. -/
def mapSet {α β : Type} [DecidableEq α] : List (α × β) → α → β → List (α × β)
  | [], k2, v2 => [(k2, v2)]
  | (k, v) :: rest, k2, v2 =>
      if k = k2 then (k, v2) :: rest else (k, v) :: mapSet rest k2 v2

/-- JS `Map.prototype.delete`. -/
def mapDelete {α β : Type} [DecidableEq α] : List (α × β) → α → List (α × β)
  | [], _ => []
  | (k, v) :: rest, k2 => if k = k2 then rest else (k, v) :: mapDelete rest k2

/-- The key on which the platform deduplicates and removes listeners:
event type, callback object and capture flag. -/
def sameKey (e : PEntry) (n : EvName) (cb : Callback) (cap : Bool) : Bool :=
  decide (e.name = n) && decide (e.callback = cb) && decide (e.capture = cap)

/-- Platform `EventTarget.addEventListener`: ignore the call when an entry
with the same (type, callback, capture) key exists, else append. -/
def targetAdd (tgt : List PEntry) (n : EvName) (cb : Callback)
    (cap onceFlag : Bool) : List PEntry :=
  if tgt.any (fun e => sameKey e n cb cap) then tgt
  else tgt ++ [⟨n, cb, cap, onceFlag⟩]

/-- Platform `EventTarget.removeEventListener`: remove the first entry
matching the (type, callback, capture) key. -/
def targetRemove : List PEntry → EvName → Callback → Bool → List PEntry
  | [], _, _, _ => []
  | e :: rest, n, cb, cap =>
      if sameKey e n cb cap then rest else e :: targetRemove rest n cb cap

/-- Read an options object off the heap; a dangling reference behaves like
an object with no (falsy) fields. -/
def heapRead (s : Emitter) (r : Nat) : OptRecord :=
  s.heap.getD r { once := false, capture := false }

/-- `typeof options !== "boolean" && options?.once` — the check guarding
the `onceRemover` wrapping in `addEventListener` and `on`. -/
def optOnce (s : Emitter) : OptionsArg → Bool
  | .undefined => false
  | .bool _ => false
  | .ref r => (heapRead s r).once

/-- The capture flag the platform extracts from the options argument. -/
def optCapture (s : Emitter) : OptionsArg → Bool
  | .undefined => false
  | .bool b => b
  | .ref r => (heapRead s r).capture

/-- The once flag the platform extracts from the options argument. -/
def optNativeOnce (s : Emitter) : OptionsArg → Bool
  | .undefined => false
  | .bool _ => false
  | .ref r => (heapRead s r).once

/-- The `__listeners__` entry for one event name (empty when absent). -/
def regMap (s : Emitter) (ty : EvName) : List (Callback × Callback) :=
  (mapGet s.listeners ty).getD []

/-- `getOrCreateListeners(type)`: create the per-name map when absent. -/
def getOrCreateListeners (s : Emitter) (ty : EvName) : Emitter :=
  match mapGet s.listeners ty with
  | some _ => s
  | none => { s with listeners := mapSet s.listeners ty [] }

/-- `this.getOrCreateListeners(type).set(key, value)`. -/
def registrySet (s : Emitter) (ty : EvName) (k w : Callback) : Emitter :=
  let s1 := getOrCreateListeners s ty
  { s1 with listeners := mapSet s1.listeners ty (mapSet (regMap s1 ty) k w) }

/-- `this.getOrCreateListeners(type).delete(key)`. -/
def registryDelete (s : Emitter) (ty : EvName) (k : Callback) : Emitter :=
  let s1 := getOrCreateListeners s ty
  { s1 with listeners := mapSet s1.listeners ty (mapDelete (regMap s1 ty) k) }

/-- `UntypedEventEmitter.removeEventListener`: resolve the identity to its
wrapper in `__listeners__`; when found, unregister the wrapper from the
platform and delete the identity from the registry; else do nothing. -/
def removeEventListener (s : Emitter) (ty : EvName) (cb : Callback)
    (cap : Bool) : Emitter :=
  match mapGet (regMap s ty) cb with
  | none => s
  | some w =>
      registryDelete { s with target := targetRemove s.target ty w cap } ty cb

/-- The argument a function object is called with: a full event, or a bare
value (what a `detailPasser` closure passes on). -/
inductive CallArg
  | ev (e : EventRec)
  | val (v : Value)
deriving DecidableEq, Repr

/-- JS property access `.detail` on the argument (undefined on a bare
value, which never happens for callbacks reachable from the API). -/
def argDetail : CallArg → Value
  | .ev e => e.detail
  | .val _ => Value.undefined

/-- What a user callback records in the log about its argument. -/
def argObserved : CallArg → CbArg
  | .ev e => CbArg.evArg e.name e.detail
  | .val v => CbArg.detailArg v

/-- Calling a function object.  A `user` callback records its invocation;
a `detailPasser` closure forwards `argument.detail` to its inner callback;
an `onceRemover` closure first calls its inner callback, then calls
`this.removeEventListener(type, inner)`; the `pull` resolver clears a
timer and resolves a promise, neither of which is emitter state. -/
def invokeWith (s : Emitter) : Callback → CallArg → Emitter
  | .user id, a => { s with log := s.log ++ [(id, argObserved a)] }
  | .detailPasser _ inner, a => invokeWith s inner (.val (argDetail a))
  | .onceRemover _ ty inner, a =>
      removeEventListener (invokeWith s inner a) ty inner false
  | .pullResolver _, _ => s

/-- Platform dispatch over a snapshot of the listener list: each snapshot
entry still present in the live list is handled; a `once` entry is removed
from the live list just before its callback is invoked. -/
def dispatchSnapshot (e : EventRec) : List PEntry → Emitter → Emitter
  | [], s => s
  | p :: rest, s =>
      if p ∈ s.target then
        let s1 :=
          if p.once then
            { s with target := targetRemove s.target p.name p.callback p.capture }
          else s
        dispatchSnapshot e rest (invokeWith s1 p.callback (.ev e))
      else dispatchSnapshot e rest s

/-- `UntypedEventEmitter.createEvent`: a `CustomEvent` with the given type
and detail; `emit` passes no init, so the event is not cancelable. -/
def createEvent (ty : EvName) (detail : Value) : EventRec :=
  { name := ty, detail := detail, cancelable := false }

/-- `dispatchEvent`: run the platform dispatch; the boolean result is true
because events built by `emit` are not cancelable. -/
def dispatchEvent (s : Emitter) (e : EventRec) : Emitter × Bool :=
  (dispatchSnapshot e (s.target.filter (fun p => decide (p.name = e.name))) s,
   true)

/-- `UntypedEventEmitter.emit` (and its aliases `dispatch` / `publish`):
build the event record and dispatch it synchronously. -/
def emit (s : Emitter) (ty : EvName) (detail : Value) : Emitter :=
  (dispatchEvent s (createEvent ty detail)).1

/-- A sequence of `emit` calls of the same event name. -/
def emitSeq (s : Emitter) (ty : EvName) : List Value → Emitter
  | [] => s
  | v :: vs => emitSeq (emit s ty v) ty vs

/-- The single-name body of `UntypedEventEmitter.addEventListener`:
wrap with `onceRemover` when `options.once`, register the (possibly
wrapped) callback with the platform, and store identity ↦ wrapper. -/
def addEventListener (s : Emitter) (ty : EvName) (cb : Callback)
    (options : OptionsArg) : Emitter :=
  let pair :=
    if optOnce s options then
      (Callback.onceRemover s.fresh ty cb, { s with fresh := s.fresh + 1 })
    else (cb, s)
  let withOnce := pair.1
  let s1 := pair.2
  let s2 := { s1 with
    target := targetAdd s1.target ty withOnce (optCapture s1 options)
      (optNativeOnce s1 options) }
  registrySet s2 ty cb withOnce

/-- The per-name `addCallback` closure inside `UntypedEventEmitter.on`:
the platform gets `detailOnly` (not the once wrapper!), while the registry
stores identity ↦ `withOnce`. -/
def onAddCallback (detailOnly : Callback) (cb : Callback)
    (options : OptionsArg) (s : Emitter) (ty : EvName) : Emitter :=
  let pair :=
    if optOnce s options then
      (Callback.onceRemover s.fresh ty detailOnly, { s with fresh := s.fresh + 1 })
    else (detailOnly, s)
  let withOnce := pair.1
  let s1 := pair.2
  let s2 := { s1 with
    target := targetAdd s1.target ty detailOnly (optCapture s1 options)
      (optNativeOnce s1 options) }
  registrySet s2 ty cb withOnce

/-- `UntypedEventEmitter.on`: build one `detailPasser` closure and fan it
out to the given name or names. -/
def onEv (s : Emitter) (types : Sum EvName (List EvName)) (cb : Callback)
    (options : OptionsArg) : Emitter :=
  let detailOnly := Callback.detailPasser s.fresh cb
  let s0 := { s with fresh := s.fresh + 1 }
  match types with
  | .inl ty => onAddCallback detailOnly cb options s0 ty
  | .inr l => l.foldl (onAddCallback detailOnly cb options) s0

/-- `options ||= \x7b\x7d` as executed by `once`: a falsy options argument
(undefined or the boolean false) is replaced by a fresh empty object. -/
def onceDefaultOptions (s : Emitter) : OptionsArg → Emitter × OptionsArg
  | .undefined =>
      ({ s with heap := s.heap ++ [{ once := false, capture := false }] },
       .ref s.heap.length)
  | .bool false =>
      ({ s with heap := s.heap ++ [{ once := false, capture := false }] },
       .ref s.heap.length)
  | .bool true => (s, .bool true)
  | .ref r => (s, .ref r)

/-- `Object.assign(options, \x7b once: true \x7d)`: mutate the options
object in place (the boolean true is first coerced to a wrapper object). -/
def onceAssign (s : Emitter) : OptionsArg → Emitter × OptionsArg
  | .ref r =>
      ({ s with heap := s.heap.set r { heapRead s r with once := true } },
       .ref r)
  | _ =>
      ({ s with heap := s.heap ++ [{ once := true, capture := false }] },
       .ref s.heap.length)

/-- `UntypedEventEmitter.once`: default the options object, set its `once`
field in place, and delegate to `on`. -/
def once (s : Emitter) (types : Sum EvName (List EvName)) (cb : Callback)
    (options : OptionsArg) : Emitter :=
  let p1 := onceDefaultOptions s options
  let p2 := onceAssign p1.1 p1.2
  onEv p2.1 types cb p2.2

/-- JS truthiness of the first `off` argument: `undefined` and the empty
string are falsy, every array is truthy. -/
def offTypesFalsy : Option (Sum EvName (List EvName)) → Bool
  | none => true
  | some (.inl ty) => decide (ty = "")
  | some (.inr _) => false

/-- The `doRemove` closure inside `off`: use the given callback, else the
outer one; do nothing when both are absent. -/
def doRemove (callback : Option Callback) (s : Emitter) (ty : EvName)
    (optionalCallback : Option Callback) : Emitter :=
  match optionalCallback with
  | some cb => removeEventListener s ty cb false
  | none =>
      match callback with
      | some cb => removeEventListener s ty cb false
      | none => s

/-- The `removeAllForOneType` closure inside `off`: remove every identity
registered for the name, then delete the name from `__listeners__`. -/
def removeAllForOneType (s : Emitter) (ty : EvName) : Emitter :=
  let s1 := (regMap s ty).foldl
    (fun acc q => doRemove none acc ty (some q.1)) s
  { s1 with listeners := mapDelete s1.listeners ty }

/-- The first branch of `off` (no arguments): iterate over all names and
identities of `__listeners__`, remove each, then clear the map. -/
def offBranchAll (s : Emitter) (callback : Option Callback) : Emitter :=
  let s1 := s.listeners.foldl
    (fun acc (p : EvName × List (Callback × Callback)) =>
      p.2.foldl (fun acc2 (q : Callback × Callback) =>
        doRemove callback acc2 p.1 (some q.1)) acc) s
  { s1 with listeners := [] }

/-- The second branch of `off` (names, no callback). -/
def offBranchTypes (s : Emitter)
    (types : Option (Sum EvName (List EvName))) : Emitter :=
  match types with
  | some (.inl ty) => removeAllForOneType s ty
  | some (.inr l) => l.foldl removeAllForOneType s
  | none => s

/-- The third branch of `off` (names and callback). -/
def offBranchSpecific (s : Emitter)
    (types : Option (Sum EvName (List EvName)))
    (callback : Option Callback) : Emitter :=
  match types, callback with
  | some (.inl ty), some cb => doRemove (some cb) s ty none
  | some (.inr l), some cb =>
      l.foldl (fun acc ty => doRemove (some cb) acc ty none) s
  | _, _ => s

/-- `UntypedEventEmitter.off`: the four branches of the implementation,
guarded by JS truthiness of the arguments; the last branch throws
`Error("Unknown case for removing event!")`. -/
def off (s : Emitter) (types : Option (Sum EvName (List EvName)))
    (callback : Option Callback) : Except String Emitter :=
  if offTypesFalsy types && callback.isNone then
    .ok (offBranchAll s callback)
  else if !offTypesFalsy types && callback.isNone then
    .ok (offBranchTypes s types)
  else if !offTypesFalsy types && callback.isSome then
    .ok (offBranchSpecific s types callback)
  else .error ("Unknown case for removing event!")

/-- JS `Set` built by iterating a list: keep first occurrences. -/
def setOfList : List Callback → List Callback
  | [] => []
  | c :: rest =>
      let tail := setOfList rest
      if c ∈ tail then tail else c :: tail

/-- Insertion-ordered deduplication, the order a JS `Set` iterates in. -/
def dedupKeepFirst (l : List Callback) : List Callback :=
  l.foldl (fun acc c => if c ∈ acc then acc else acc ++ [c]) []

/-- `getListeners(type)`: the `Set` of the values (!) of the per-name
registry map, i.e. the dispatch wrappers. -/
def getListeners (s : Emitter) (ty : EvName) : List Callback :=
  dedupKeepFirst ((regMap s ty).map (fun q => q.2))

/-- `getListeners()`: every name of `__listeners__` mapped to its
wrapper set. -/
def getListenersAll (s : Emitter) : List (EvName × List Callback) :=
  s.listeners.map (fun p => (p.1, getListeners s p.1))

/-- The observable outcome of the synchronous part of a `pull` call:
the updated emitter, the resolver closure handed to `once`, the delay
argument the code passed to `setTimeout` (none when no timer was
scheduled), and whether the timer has been cleared. -/
structure PullState where
  emitter : Emitter
  resolverCb : Callback
  timerDelay : Option Nat
  timerCleared : Bool
deriving DecidableEq, Repr

/-- `UntypedEventEmitter.pull`: register a once-listener resolving the
promise; when the requested timeout is truthy, schedule the rejection
timer — the source calls `setTimeout(cb)` with no delay argument, so the
scheduled delay is 0 whatever timeout was requested. -/
def pull (s : Emitter) (ty : EvName) (timeout : Option Nat) : PullState :=
  let resolver := Callback.pullResolver s.fresh
  let s0 := { s with fresh := s.fresh + 1 }
  let s1 := once s0 (.inl ty) resolver OptionsArg.undefined
  match timeout with
  | some t =>
      if t ≠ 0 then
        { emitter := s1, resolverCb := resolver, timerDelay := some 0,
          timerCleared := false }
      else
        { emitter := s1, resolverCb := resolver, timerDelay := none,
          timerCleared := false }
  | none =>
      { emitter := s1, resolverCb := resolver, timerDelay := none,
        timerCleared := false }

/-- Firing the rejection timer of `pull`: the source handler only clears
the timer and rejects the promise; it does not touch the emitter, in
particular it removes no listener. -/
def pullTimeoutFire (p : PullState) : PullState :=
  { p with timerCleared := true }

/-- `ReservedEventEmitter.emitReserved`: the protected entry point is
`super.emit`, with no runtime check of the name. -/
def emitReserved (s : Emitter) (ty : EvName) (detail : Value) : Emitter :=
  emit s ty detail

/-- `ReservedEventEmitter.emit`: the public entry point also delegates to
`super.emit`; the reserved/public split is compile-time only. -/
def reservedPublicEmit (s : Emitter) (ty : EvName) (detail : Value) : Emitter :=
  emit s ty detail

/-- A registration step: `on(name, user k)` or
`addEventListener(name, user k)`, both without options. -/
inductive RegOp
  | onOp (ty : EvName) (k : Nat)
  | aelOp (ty : EvName) (k : Nat)
deriving DecidableEq, Repr

/-- The (name, identity) key of a registration step. -/
def RegOp.key : RegOp → EvName × Nat
  | .onOp ty k => (ty, k)
  | .aelOp ty k => (ty, k)

/-- Run one registration step. -/
def applyOp (s : Emitter) : RegOp → Emitter
  | .onOp ty k => onEv s (.inl ty) (.user k) .undefined
  | .aelOp ty k => addEventListener s ty (.user k) .undefined

/-- Run a sequence of registration steps. -/
def applyOps (s : Emitter) (ops : List RegOp) : Emitter :=
  ops.foldl applyOp s

/-- How often user callback `k` appears in an invocation log. -/
def countLog (k : Nat) (log : List (Nat × CbArg)) : Nat :=
  (log.filter (fun p => decide (p.1 = k))).length

/-- Whether a call of `off` raised the fatal error. -/
def raisesError (r : Except String Emitter) : Bool :=
  match r with
  | .error _ => true
  | .ok _ => false

/-- The user id logged by a plain `detailPasser` wrapper. -/
def plainId : Callback → Nat
  | .detailPasser _ (.user k) => k
  | _ => 0

/-- The platform callbacks registered for one name, in order. -/
def targetCbsFor (s : Emitter) (ty : EvName) : List Callback :=
  (s.target.filter (fun p => decide (p.name = ty))).map (fun p => p.callback)

/-- All closure ids inside a function object lie below the bound — the
freshness invariant tying function objects to the emitter counter. -/
def cbBound : Callback → Nat → Prop
  | .user _, _ => True
  | .detailPasser j inner, b => j < b ∧ cbBound inner b
  | .onceRemover j _ inner, b => j < b ∧ cbBound inner b
  | .pullResolver j, b => j < b

/-- Well-formedness of the emitter state maintained by non-once
registrations: per name, the platform callbacks coincide in order with the
registry wrapper column; all platform entries are bubble-phase non-once;
all closure ids are below the freshness counter; the registry names are
distinct; and every registry pair is a user identity mapped either to
itself (the `addEventListener` case) or to a `detailPasser` around itself
(the `on` case). -/
structure WFreg (s : Emitter) : Prop where
  corr : ∀ ty, targetCbsFor s ty = (regMap s ty).map (fun q => q.2)
  flags : ∀ p ∈ s.target, p.capture = false ∧ p.once = false
  freshB : ∀ p ∈ s.target, cbBound p.callback s.fresh
  namesNodup : (s.listeners.map (fun p => p.1)).Nodup
  vals : ∀ ty, ∀ q ∈ regMap s ty,
    (∃ i, q.1 = Callback.user i) ∧
    (q.2 = q.1 ∨ ∃ j, q.2 = Callback.detailPasser j q.1)

/-! ## General lemmas about the model -/

theorem registrySet_heap (s : Emitter) (ty : EvName) (k w : Callback) :
    (registrySet s ty k w).heap = s.heap := by
  unfold registrySet getOrCreateListeners
  rcases mapGet s.listeners ty with _ | m <;> rfl

theorem registrySet_target (s : Emitter) (ty : EvName) (k w : Callback) :
    (registrySet s ty k w).target = s.target := by
  unfold registrySet getOrCreateListeners
  rcases mapGet s.listeners ty with _ | m <;> rfl

theorem registrySet_log (s : Emitter) (ty : EvName) (k w : Callback) :
    (registrySet s ty k w).log = s.log := by
  unfold registrySet getOrCreateListeners
  rcases mapGet s.listeners ty with _ | m <;> rfl

theorem registrySet_fresh (s : Emitter) (ty : EvName) (k w : Callback) :
    (registrySet s ty k w).fresh = s.fresh := by
  unfold registrySet getOrCreateListeners
  rcases mapGet s.listeners ty with _ | m <;> rfl

theorem onAddCallback_heap (d cb : Callback) (o : OptionsArg) (s : Emitter)
    (ty : EvName) : (onAddCallback d cb o s ty).heap = s.heap := by
  unfold onAddCallback
  rcases h : optOnce s o <;> simp [h, registrySet_heap]

theorem foldl_onAddCallback_heap (d cb : Callback) (o : OptionsArg) :
    ∀ (l : List EvName) (s : Emitter),
      (l.foldl (onAddCallback d cb o) s).heap = s.heap
  | [], _ => rfl
  | ty :: rest, s => by
      rw [List.foldl_cons, foldl_onAddCallback_heap d cb o rest,
        onAddCallback_heap]

theorem onEv_heap (s : Emitter) (types : Sum EvName (List EvName))
    (cb : Callback) (o : OptionsArg) : (onEv s types cb o).heap = s.heap := by
  unfold onEv
  rcases types with ty | l
  · exact onAddCallback_heap _ _ _ _ _
  · exact foldl_onAddCallback_heap _ _ _ _ _

theorem removeEventListener_not_found (s : Emitter) (ty : EvName)
    (cb : Callback) (cap : Bool) (h : mapGet (regMap s ty) cb = none) :
    removeEventListener s ty cb cap = s := by
  unfold removeEventListener
  rw [h]

theorem sameKey_name {e : PEntry} {n : EvName} {cb : Callback} {cap : Bool}
    (h : sameKey e n cb cap = true) : e.name = n := by
  simp only [sameKey, Bool.and_eq_true, decide_eq_true_eq] at h
  exact h.1.1

theorem targetAdd_append (tgt : List PEntry) (n : EvName) (cb : Callback)
    (cap o : Bool) (h : ∀ e ∈ tgt, sameKey e n cb cap = false) :
    targetAdd tgt n cb cap o = tgt ++ [⟨n, cb, cap, o⟩] := by
  unfold targetAdd
  have hany : tgt.any (fun e => sameKey e n cb cap) = false := by
    rw [List.any_eq_false]
    intro e he
    simp [h e he]
  rw [hany]
  simp

theorem invokeWith_plain (s : Emitter) (j k : Nat) (e : EventRec) :
    invokeWith s (.detailPasser j (.user k)) (.ev e) =
      { s with log := s.log ++ [(k, CbArg.detailArg e.detail)] } := rfl

theorem dispatchSnapshot_plain (e : EventRec) (l : List PEntry) :
    ∀ s : Emitter, (∀ p ∈ l, p ∈ s.target) →
      (∀ p ∈ l, (∃ j k, p.callback = .detailPasser j (.user k)) ∧
        p.once = false) →
      dispatchSnapshot e l s =
        { s with log := s.log ++
            l.map (fun p => (plainId p.callback, CbArg.detailArg e.detail)) } := by
  induction l with
  | nil => intro s _ _; simp [dispatchSnapshot]
  | cons p rest ih =>
      intro s hmem hshape
      obtain ⟨⟨j, k, hcb⟩, honce⟩ := hshape p (by simp)
      have hin : p ∈ s.target := hmem p (by simp)
      have hinv : invokeWith s p.callback (.ev e) =
          { s with log := s.log ++
            [(plainId p.callback, CbArg.detailArg e.detail)] } := by
        rw [hcb]; rfl
      rw [dispatchSnapshot, if_pos hin, honce]
      simp only [Bool.false_eq_true, if_false]
      rw [hinv, ih]
      · simp
      · intro q hq
        exact hmem q (by simp [hq])
      · intro q hq
        exact hshape q (by simp [hq])

theorem emit_noop (s : Emitter) (ty : EvName) (v : Value)
    (h : s.target.filter (fun p => decide (p.name = ty)) = []) :
    emit s ty v = s := by
  unfold emit dispatchEvent createEvent
  simp only
  rw [h]
  rfl

theorem emitSeq_noop (s : Emitter) (ty : EvName) (vs : List Value)
    (h : s.target = []) : emitSeq s ty vs = s := by
  induction vs with
  | nil => rfl
  | cons v rest ih =>
      rw [emitSeq, emit_noop s ty v (by rw [h]; rfl)]
      exact ih

theorem sameKey_false_of_name {e : PEntry} {n : EvName} (cb : Callback)
    (cap : Bool) (h : e.name ≠ n) : sameKey e n cb cap = false := by
  simp [sameKey, h]

theorem sameKey_false_of_cb {e : PEntry} {cb : Callback} (n : EvName)
    (cap : Bool) (h : e.callback ≠ cb) : sameKey e n cb cap = false := by
  simp [sameKey, h]

theorem onEv_inl_undef_target (s : Emitter) (n : EvName) (k : Nat)
    (h : ∀ e ∈ s.target,
      sameKey e n (.detailPasser s.fresh (.user k)) false = false) :
    (onEv s (.inl n) (.user k) .undefined).target =
      s.target ++ [⟨n, .detailPasser s.fresh (.user k), false, false⟩] := by
  unfold onEv onAddCallback
  simp only [optOnce, Bool.false_eq_true, if_false, registrySet_target,
    optCapture, optNativeOnce]
  exact targetAdd_append _ _ _ _ _ h

theorem onEv_inl_undef_log (s : Emitter) (n : EvName) (k : Nat) :
    (onEv s (.inl n) (.user k) .undefined).log = s.log := by
  unfold onEv onAddCallback
  simp only [optOnce, Bool.false_eq_true, if_false, registrySet_log]

theorem onEv_inl_undef_fresh (s : Emitter) (n : EvName) (k : Nat) :
    (onEv s (.inl n) (.user k) .undefined).fresh = s.fresh + 1 := by
  unfold onEv onAddCallback
  simp only [optOnce, Bool.false_eq_true, if_false, registrySet_fresh]

theorem name_ne_of_filter_nil {s : Emitter} {n : EvName}
    (h : s.target.filter (fun p => decide (p.name = n)) = []) :
    ∀ e ∈ s.target, e.name ≠ n := by
  intro e he
  have := List.filter_eq_nil_iff.mp h e he
  simpa using this

theorem emit_eq_dispatch (s : Emitter) (n : EvName) (v : Value) :
    emit s n v = dispatchSnapshot (createEvent n v)
      (s.target.filter (fun p => decide (p.name = n))) s := rfl

theorem emit_on_single (s : Emitter) (n : EvName) (k : Nat) (v : Value)
    (h : s.target.filter (fun p => decide (p.name = n)) = []) :
    (emit (onEv s (.inl n) (.user k) .undefined) n v).log =
      s.log ++ [(k, CbArg.detailArg v)] := by
  have hname := name_ne_of_filter_nil h
  have ht := onEv_inl_undef_target s n k
    (fun e he => sameKey_false_of_name _ _ (hname e he))
  have hl := onEv_inl_undef_log s n k
  set s1 := onEv s (.inl n) (.user k) .undefined with hs1
  have hfilter : s1.target.filter (fun p => decide (p.name = n)) =
      [⟨n, .detailPasser s.fresh (.user k), false, false⟩] := by
    rw [ht, List.filter_append, h]
    simp
  have hdisp := dispatchSnapshot_plain (createEvent n v)
    [⟨n, .detailPasser s.fresh (.user k), false, false⟩] s1
    (by intro p hp
        simp only [List.mem_singleton] at hp
        rw [hp, ht]
        simp)
    (by intro p hp
        simp only [List.mem_singleton] at hp
        rw [hp]
        exact ⟨⟨s.fresh, k, rfl⟩, rfl⟩)
  show (dispatchSnapshot (createEvent n v)
      (s1.target.filter (fun p => decide (p.name = (createEvent n v).name)))
      s1).log = s.log ++ [(k, CbArg.detailArg v)]
  rw [show (createEvent n v).name = n from rfl, hfilter, hdisp, hl]
  rfl

/-- The state reached by `once(n, f)` on a fresh emitter: the platform
holds the bare `detailPasser` wrapper with the native once flag, while the
registry maps the identity to an `onceRemover` wrapper that was never
registered with the platform. -/
theorem once_init_compute (n : EvName) (k : Nat) :
    once initEmitter (.inl n) (.user k) .undefined =
      { target := [⟨n, .detailPasser 0 (.user k), false, true⟩],
        listeners :=
          [(n, [(.user k, .onceRemover 1 n (.detailPasser 0 (.user k)))])],
        heap := [{ once := true, capture := false }],
        fresh := 2, log := [] } := by
  unfold once onceDefaultOptions onceAssign onEv onAddCallback
  simp [optOnce, optCapture, optNativeOnce, heapRead, targetAdd, registrySet,
    getOrCreateListeners, regMap, mapGet, mapSet, initEmitter]

/-- Firing the once listener: the platform removes its entry before the
invocation, the user callback is logged once, and the registry entry for
the identity survives. -/
theorem emit_once_init (n : EvName) (k : Nat) (v : Value) :
    emit (once initEmitter (.inl n) (.user k) .undefined) n v =
      { target := [],
        listeners :=
          [(n, [(.user k, .onceRemover 1 n (.detailPasser 0 (.user k)))])],
        heap := [{ once := true, capture := false }],
        fresh := 2, log := [(k, CbArg.detailArg v)] } := by
  rw [once_init_compute, emit_eq_dispatch]
  simp [dispatchSnapshot, targetRemove, sameKey, invokeWith, argDetail,
    argObserved, createEvent]

section MapLemmas

variable {α β : Type} [DecidableEq α]

theorem mapGet_mapSet_self (m : List (α × β)) (k : α) (v : β) :
    mapGet (mapSet m k v) k = some v := by
  induction m with
  | nil => simp [mapSet, mapGet]
  | cons q rest ih =>
      by_cases h : q.1 = k
      · simp [mapSet, mapGet, h]
      · simp only [mapSet, mapGet]
        rw [if_neg h, mapGet, if_neg h]
        exact ih

theorem mapGet_mapSet_ne (m : List (α × β)) (k k2 : α) (v : β)
    (h : k ≠ k2) : mapGet (mapSet m k v) k2 = mapGet m k2 := by
  induction m with
  | nil => simp [mapSet, mapGet, h]
  | cons q rest ih =>
      by_cases hq : q.1 = k
      · simp only [mapSet]
        rw [if_pos hq, mapGet, mapGet]
        have : ¬q.1 = k2 := by rw [hq]; exact h
        rw [if_neg this, if_neg this]
      · simp only [mapSet]
        rw [if_neg hq, mapGet, mapGet]
        by_cases h2 : q.1 = k2
        · rw [if_pos h2, if_pos h2]
        · rw [if_neg h2, if_neg h2]
          exact ih

theorem mapSet_of_not_found (m : List (α × β)) (k : α) (v : β)
    (h : mapGet m k = none) : mapSet m k v = m ++ [(k, v)] := by
  induction m with
  | nil => rfl
  | cons q rest ih =>
      rw [mapGet] at h
      by_cases hq : q.1 = k
      · rw [if_pos hq] at h
        exact absurd h (by simp)
      · rw [if_neg hq] at h
        simp only [mapSet]
        rw [if_neg hq, ih h]
        rfl

theorem mapGet_none_forall (m : List (α × β)) (k : α)
    (h : mapGet m k = none) : ∀ q ∈ m, q.1 ≠ k := by
  induction m with
  | nil => simp
  | cons q rest ih =>
      rw [mapGet] at h
      by_cases hq : q.1 = k
      · rw [if_pos hq] at h
        exact absurd h (by simp)
      · rw [if_neg hq] at h
        intro p hp
        rcases List.mem_cons.mp hp with hp | hp
        · rw [hp]; exact hq
        · exact ih h p hp

theorem mapGet_some_of_mem_nodup (m : List (α × β)) (q : α × β)
    (hnd : (m.map (fun p => p.1)).Nodup) (hq : q ∈ m) :
    mapGet m q.1 = some q.2 := by
  induction m with
  | nil => simp at hq
  | cons p rest ih =>
      rw [List.map_cons, List.nodup_cons] at hnd
      rcases List.mem_cons.mp hq with hq | hq
      · rw [hq, mapGet, if_pos rfl]
      · rw [mapGet]
        have : p.1 ≠ q.1 := by
          intro he
          exact hnd.1 (he ▸ List.mem_map_of_mem (fun r => r.1) hq)
        rw [if_neg this]
        exact ih hnd.2 hq

theorem mapGet_append_ne (m : List (α × β)) (k k2 : α) (v : β)
    (h : k ≠ k2) : mapGet (m ++ [(k, v)]) k2 = mapGet m k2 := by
  induction m with
  | nil => simp [mapGet, h]
  | cons q rest ih =>
      rw [List.cons_append, mapGet, mapGet]
      by_cases hq : q.1 = k2
      · rw [if_pos hq, if_pos hq]
      · rw [if_neg hq, if_neg hq]
        exact ih

theorem mapSet_keys_found (m : List (α × β)) (k : α) (v v0 : β)
    (h : mapGet m k = some v0) :
    (mapSet m k v).map (fun q => q.1) = m.map (fun q => q.1) := by
  induction m with
  | nil => simp [mapGet] at h
  | cons q rest ih =>
      rw [mapGet] at h
      by_cases hq : q.1 = k
      · simp only [mapSet]
        rw [if_pos hq]
        rfl
      · rw [if_neg hq] at h
        simp only [mapSet]
        rw [if_neg hq, List.map_cons, List.map_cons, ih h]

theorem mapDelete_cons_self (k : α) (v : β) (rest : List (α × β)) :
    mapDelete ((k, v) :: rest) k = rest := by
  simp [mapDelete]

theorem mapGet_cons_self (k : α) (v : β) (rest : List (α × β)) :
    mapGet ((k, v) :: rest) k = some v := by
  simp [mapGet]

end MapLemmas

theorem cbBound_mono {c : Callback} {b b2 : Nat} (h : cbBound c b)
    (hb : b ≤ b2) : cbBound c b2 := by
  induction c with
  | user i => trivial
  | detailPasser j inner ih =>
      exact ⟨Nat.lt_of_lt_of_le h.1 hb, ih h.2⟩
  | onceRemover j ty inner ih =>
      exact ⟨Nat.lt_of_lt_of_le h.1 hb, ih h.2⟩
  | pullResolver j => exact Nat.lt_of_lt_of_le h hb

theorem cbBound_ne_detailPasser {c : Callback} {b : Nat} (h : cbBound c b)
    (inner : Callback) : c ≠ .detailPasser b inner := by
  intro he
  rw [he] at h
  exact absurd h.1 (Nat.lt_irrefl b)

/-- Removing by the key of the first entry of a name removes exactly that
entry: the listener list for the name loses its head, every other name is
untouched, and the result is a sub-collection of the original. -/
theorem targetRemove_first (l : List PEntry) (ty : EvName) (w : Callback)
    (f0 : PEntry) (F2 : List PEntry)
    (hf : l.filter (fun p => decide (p.name = ty)) = f0 :: F2)
    (hw : f0.callback = w) (hcap : f0.capture = false) :
    (targetRemove l ty w false).filter (fun p => decide (p.name = ty)) =
      F2 ∧
    (∀ ty2, ty2 ≠ ty →
      (targetRemove l ty w false).filter (fun p => decide (p.name = ty2)) =
        l.filter (fun p => decide (p.name = ty2))) ∧
    (∀ p ∈ targetRemove l ty w false, p ∈ l) := by
  induction l with
  | nil => simp at hf
  | cons e l2 ih =>
      by_cases hname : e.name = ty
      · have hfe : (e :: l2).filter (fun p => decide (p.name = ty)) =
            e :: l2.filter (fun p => decide (p.name = ty)) := by
          simp [List.filter_cons, hname]
        rw [hfe] at hf
        have he0 : e = f0 := (List.cons.injEq _ _ _ _ ▸ hf).1
        have hF2 : l2.filter (fun p => decide (p.name = ty)) = F2 :=
          (List.cons.injEq _ _ _ _ ▸ hf).2
        have hkey : sameKey e ty w false = true := by
          rw [he0]
          rw [he0] at hname
          simp [sameKey, hname, hw, hcap]
        rw [targetRemove, if_pos hkey]
        refine ⟨hF2, ?_, ?_⟩
        · intro ty2 hty2
          have : (e :: l2).filter (fun p => decide (p.name = ty2)) =
              l2.filter (fun p => decide (p.name = ty2)) := by
            simp [List.filter_cons, hname, hty2.symm]
          rw [this]
        · intro p hp
          exact List.mem_cons_of_mem e hp
      · have hfe : (e :: l2).filter (fun p => decide (p.name = ty)) =
            l2.filter (fun p => decide (p.name = ty)) := by
          simp [List.filter_cons, hname]
        rw [hfe] at hf
        have hkey : sameKey e ty w false = false :=
          sameKey_false_of_name _ _ hname
        rw [targetRemove, if_neg (by rw [hkey]; exact Bool.false_ne_true)]
        obtain ⟨ihA, ihB, ihC⟩ := ih hf
        refine ⟨?_, ?_, ?_⟩
        · rw [List.filter_cons]
          simp only [hname, decide_False, Bool.false_eq_true, if_false]
          exact ihA
        · intro ty2 hty2
          rw [List.filter_cons, List.filter_cons]
          by_cases h2 : e.name = ty2
          · simp only [h2, decide_True, if_true]
            rw [ihB ty2 hty2]
          · simp only [h2, decide_False, Bool.false_eq_true, if_false]
            exact ihB ty2 hty2
        · intro p hp
          rcases List.mem_cons.mp hp with hp | hp
          · rw [hp]; exact List.mem_cons_self _ _
          · exact List.mem_cons_of_mem e (ihC p hp)

theorem registrySet_listeners (s : Emitter) (ty : EvName)
    (k w : Callback) :
    (registrySet s ty k w).listeners =
      mapSet (getOrCreateListeners s ty).listeners ty
        (mapSet (regMap s ty) k w) := by
  have hr : regMap (getOrCreateListeners s ty) ty = regMap s ty := by
    unfold getOrCreateListeners regMap
    rcases hm : mapGet s.listeners ty with _ | m
    · simp only [hm]
      rw [mapGet_mapSet_self]
      rfl
    · simp only [hm]
  simp only [registrySet]
  rw [hr]

theorem getOrCreateListeners_mapGet_self (s : Emitter) (ty : EvName) :
    mapGet (getOrCreateListeners s ty).listeners ty =
      some (regMap s ty) := by
  unfold getOrCreateListeners regMap
  rcases hm : mapGet s.listeners ty with _ | m
  · simp only [hm]
    rw [mapGet_mapSet_self]
    rfl
  · simp only [hm]
    rfl

theorem getOrCreateListeners_mapGet_other (s : Emitter) (ty ty2 : EvName)
    (h : ty2 ≠ ty) :
    mapGet (getOrCreateListeners s ty).listeners ty2 =
      mapGet s.listeners ty2 := by
  unfold getOrCreateListeners
  rcases hm : mapGet s.listeners ty with _ | m
  · simp only [hm]
    exact mapGet_mapSet_ne _ _ _ _ (fun he => h he.symm)
  · simp only [hm]

theorem regMap_registrySet_self (s : Emitter) (ty : EvName)
    (k w : Callback) :
    regMap (registrySet s ty k w) ty = mapSet (regMap s ty) k w := by
  unfold regMap
  rw [registrySet_listeners, mapGet_mapSet_self]
  rfl

theorem mapGet_registrySet_other (s : Emitter) (ty ty2 : EvName)
    (k w : Callback) (h : ty2 ≠ ty) :
    mapGet (registrySet s ty k w).listeners ty2 =
      mapGet s.listeners ty2 := by
  rw [registrySet_listeners,
    mapGet_mapSet_ne _ _ _ _ (fun he => h he.symm),
    getOrCreateListeners_mapGet_other s ty ty2 h]

theorem regMap_registrySet_other (s : Emitter) (ty ty2 : EvName)
    (k w : Callback) (h : ty2 ≠ ty) :
    regMap (registrySet s ty k w) ty2 = regMap s ty2 := by
  unfold regMap
  rw [mapGet_registrySet_other s ty ty2 k w h]

theorem registrySet_keys_found (s : Emitter) (ty : EvName) (k w : Callback)
    (m : List (Callback × Callback)) (hm : mapGet s.listeners ty = some m) :
    (registrySet s ty k w).listeners.map (fun p => p.1) =
      s.listeners.map (fun p => p.1) := by
  rw [registrySet_listeners]
  have hgoc : getOrCreateListeners s ty = s := by
    unfold getOrCreateListeners
    simp only [hm]
  rw [hgoc]
  exact mapSet_keys_found _ _ _ _ hm

theorem registrySet_keys_none (s : Emitter) (ty : EvName) (k w : Callback)
    (hm : mapGet s.listeners ty = none) :
    (registrySet s ty k w).listeners.map (fun p => p.1) =
      s.listeners.map (fun p => p.1) ++ [ty] := by
  rw [registrySet_listeners]
  rw [mapSet_keys_found _ _ _ _ (getOrCreateListeners_mapGet_self s ty)]
  unfold getOrCreateListeners
  simp only [hm]
  rw [mapSet_of_not_found _ _ _ hm]
  simp

theorem getOrCreateListeners_target (s : Emitter) (ty : EvName) :
    (getOrCreateListeners s ty).target = s.target := by
  unfold getOrCreateListeners
  rcases hm : mapGet s.listeners ty with _ | m <;> simp only [hm]

theorem registryDelete_listeners (s : Emitter) (ty : EvName)
    (k : Callback) :
    (registryDelete s ty k).listeners =
      mapSet (getOrCreateListeners s ty).listeners ty
        (mapDelete (regMap s ty) k) := by
  have hr : regMap (getOrCreateListeners s ty) ty = regMap s ty := by
    unfold getOrCreateListeners regMap
    rcases hm : mapGet s.listeners ty with _ | m
    · simp only [hm]
      rw [mapGet_mapSet_self]
      rfl
    · simp only [hm]
  simp only [registryDelete]
  rw [hr]

theorem registryDelete_target (s : Emitter) (ty : EvName) (k : Callback) :
    (registryDelete s ty k).target = s.target := by
  simp only [registryDelete]
  exact getOrCreateListeners_target s ty

/-- One step of the removal fold inside `off`: removing the identity that
heads the registry map for a name removes its wrapper (the head of the
platform listeners of that name) and the registry entry, leaving every
other name untouched. -/
theorem removeStep (s : Emitter) (ty : EvName) (k w : Callback)
    (m2 : List (Callback × Callback))
    (hreg : regMap s ty = (k, w) :: m2)
    (hcorr : targetCbsFor s ty = ((k, w) :: m2).map (fun q => q.2))
    (hcap : ∀ p ∈ s.target, p.capture = false) :
    regMap (removeEventListener s ty k false) ty = m2 ∧
    targetCbsFor (removeEventListener s ty k false) ty =
      m2.map (fun q => q.2) ∧
    (∀ ty2, ty2 ≠ ty →
      mapGet (removeEventListener s ty k false).listeners ty2 =
        mapGet s.listeners ty2) ∧
    (∀ ty2, ty2 ≠ ty →
      targetCbsFor (removeEventListener s ty k false) ty2 =
        targetCbsFor s ty2) ∧
    (∀ p ∈ (removeEventListener s ty k false).target, p ∈ s.target) := by
  have hget : mapGet (regMap s ty) k = some w := by
    rw [hreg]
    exact mapGet_cons_self _ _ _
  have hmap : (s.target.filter (fun p => decide (p.name = ty))).map
      (fun p => p.callback) = w :: m2.map (fun q => q.2) := by
    simpa [targetCbsFor] using hcorr
  rcases hfil : s.target.filter (fun p => decide (p.name = ty)) with _ | ⟨f0, F2⟩
  · rw [hfil] at hmap
    simp at hmap
  · rw [hfil] at hmap
    simp only [List.map_cons, List.cons.injEq] at hmap
    obtain ⟨hw, hF2⟩ := hmap
    have hf0mem : f0 ∈ s.target := by
      have hin : f0 ∈ s.target.filter (fun p => decide (p.name = ty)) := by
        rw [hfil]
        exact List.mem_cons_self _ _
      exact (List.mem_filter.mp hin).1
    have hcap0 : f0.capture = false := hcap f0 hf0mem
    obtain ⟨tA, tB, tC⟩ := targetRemove_first s.target ty w f0 F2 hfil hw hcap0
    have hrem : removeEventListener s ty k false =
        registryDelete { s with target := targetRemove s.target ty w false }
          ty k := by
      unfold removeEventListener
      rw [hget]
    have hregX : regMap { s with
        target := targetRemove s.target ty w false } ty = regMap s ty := rfl
    have htgt : (removeEventListener s ty k false).target =
        targetRemove s.target ty w false := by
      rw [hrem, registryDelete_target]
    have hlst : (removeEventListener s ty k false).listeners =
        mapSet (getOrCreateListeners
          { s with target := targetRemove s.target ty w false } ty).listeners
          ty m2 := by
      rw [hrem, registryDelete_listeners, hregX, hreg, mapDelete_cons_self]
    refine ⟨?_, ?_, ?_, ?_, ?_⟩
    · unfold regMap
      rw [hlst, mapGet_mapSet_self]
      rfl
    · unfold targetCbsFor
      rw [htgt, tA, hF2]
    · intro ty2 hty2
      rw [hlst, mapGet_mapSet_ne _ _ _ _ (fun he => hty2 he.symm),
        getOrCreateListeners_mapGet_other _ _ _ hty2]
    · intro ty2 hty2
      unfold targetCbsFor
      rw [htgt, tB ty2 hty2]
    · intro p hp
      rw [htgt] at hp
      exact tC p hp

/-- Folding the removal step over the whole registry map of one name
(the body of `removeAllForOneType` and of the no-argument `off` branch)
empties that name on both sides and leaves every other name untouched. -/
theorem processName (ty : EvName) :
    ∀ (m : List (Callback × Callback)) (s : Emitter),
      regMap s ty = m →
      targetCbsFor s ty = m.map (fun q => q.2) →
      (∀ p ∈ s.target, p.capture = false) →
      regMap (m.foldl (fun acc q => doRemove none acc ty (some q.1)) s)
        ty = [] ∧
      targetCbsFor (m.foldl (fun acc q => doRemove none acc ty (some q.1))
        s) ty = [] ∧
      (∀ ty2, ty2 ≠ ty →
        mapGet (m.foldl (fun acc q => doRemove none acc ty (some q.1))
          s).listeners ty2 = mapGet s.listeners ty2) ∧
      (∀ ty2, ty2 ≠ ty →
        targetCbsFor (m.foldl (fun acc q => doRemove none acc ty (some q.1))
          s) ty2 = targetCbsFor s ty2) ∧
      (∀ p ∈ (m.foldl (fun acc q => doRemove none acc ty (some q.1))
        s).target, p ∈ s.target) := by
  intro m
  induction m with
  | nil =>
      intro s hreg hcorr _
      refine ⟨hreg, by simpa using hcorr, fun _ _ => rfl, fun _ _ => rfl,
        fun p hp => hp⟩
  | cons q m2 ih =>
      intro s hreg hcorr hcap
      have hstep : doRemove none s ty (some q.1) =
          removeEventListener s ty q.1 false := rfl
      obtain ⟨sA, sB, sC, sD, sE⟩ :=
        removeStep s ty q.1 q.2 m2 hreg hcorr hcap
      rw [List.foldl_cons, hstep]
      obtain ⟨iA, iB, iC, iD, iE⟩ := ih (removeEventListener s ty q.1 false)
        sA sB (fun p hp => hcap p (sE p hp))
      refine ⟨iA, iB, ?_, ?_, ?_⟩
      · intro ty2 hty2
        rw [iC ty2 hty2, sC ty2 hty2]
      · intro ty2 hty2
        rw [iD ty2 hty2, sD ty2 hty2]
      · intro p hp
        exact sE p (iE p hp)

theorem mapGet_some_mem_keys {α β : Type} [DecidableEq α]
    (m : List (α × β)) (k : α) (v : β) (h : mapGet m k = some v) :
    k ∈ m.map (fun q => q.1) := by
  induction m with
  | nil => simp [mapGet] at h
  | cons q rest ih =>
      rw [mapGet] at h
      by_cases hq : q.1 = k
      · rw [List.map_cons, hq]
        exact List.mem_cons_self _ _
      · rw [if_neg hq] at h
        exact List.mem_cons_of_mem _ (ih h)

/-- The nested fold of the no-argument `off` branch: processing every
snapshot entry empties the platform listeners of every processed name and
preserves the others. -/
theorem offAllFold :
    ∀ (LS : List (EvName × List (Callback × Callback))) (s : Emitter),
      (∀ p ∈ LS, mapGet s.listeners p.1 = some p.2) →
      ((LS.map (fun p => p.1)).Nodup) →
      (∀ ty, targetCbsFor s ty = (regMap s ty).map (fun q => q.2)) →
      (∀ p ∈ s.target, p.capture = false) →
      (∀ p ∈ LS, targetCbsFor
        (LS.foldl (fun acc p => p.2.foldl (fun acc2 q =>
          doRemove none acc2 p.1 (some q.1)) acc) s) p.1 = []) ∧
      (∀ ty, ty ∉ LS.map (fun p => p.1) → targetCbsFor
        (LS.foldl (fun acc p => p.2.foldl (fun acc2 q =>
          doRemove none acc2 p.1 (some q.1)) acc) s) ty =
          targetCbsFor s ty) ∧
      (∀ p ∈ (LS.foldl (fun acc p => p.2.foldl (fun acc2 q =>
        doRemove none acc2 p.1 (some q.1)) acc) s).target, p ∈ s.target) := by
  intro LS
  induction LS with
  | nil =>
      intro s _ _ _ _
      exact ⟨by simp, fun _ _ => rfl, fun p hp => hp⟩
  | cons hd rest ih =>
      intro s h1 h2 h3 h4
      rw [List.map_cons, List.nodup_cons] at h2
      have hhead : mapGet s.listeners hd.1 = some hd.2 :=
        h1 hd (List.mem_cons_self _ _)
      have hreg : regMap s hd.1 = hd.2 := by
        unfold regMap
        rw [hhead]
        rfl
      obtain ⟨pA, pB, pC, pD, pE⟩ := processName hd.1 hd.2 s hreg
        (by rw [h3 hd.1, hreg]) h4
      rw [List.foldl_cons]
      set s1 := hd.2.foldl (fun acc2 q => doRemove none acc2 hd.1 (some q.1))
        s with hs1
      have hrest1 : ∀ p ∈ rest, mapGet s1.listeners p.1 = some p.2 := by
        intro p hp
        have hne : p.1 ≠ hd.1 := by
          intro he
          exact h2.1 (he ▸ List.mem_map_of_mem (fun r => r.1) hp)
        rw [pC p.1 hne]
        exact h1 p (List.mem_cons_of_mem _ hp)
      have hrest3 : ∀ ty, targetCbsFor s1 ty =
          (regMap s1 ty).map (fun q => q.2) := by
        intro ty
        by_cases hty : ty = hd.1
        · rw [hty, pB, pA]
          rfl
        · have : regMap s1 ty = regMap s ty := by
            unfold regMap
            rw [pC ty hty]
          rw [pD ty hty, this, h3 ty]
      obtain ⟨qA, qB, qC⟩ := ih s1 hrest1 h2.2 hrest3
        (fun p hp => h4 p (pE p hp))
      refine ⟨?_, ?_, ?_⟩
      · intro p hp
        rcases List.mem_cons.mp hp with hp | hp
        · rw [hp]
          by_cases hmem : hd.1 ∈ rest.map (fun r => r.1)
          · exact absurd hmem (hp ▸ h2.1)
          · rw [qB hd.1 hmem]
            exact pB
        · exact qA p hp
      · intro ty hty
        rw [List.map_cons] at hty
        have hty1 : ty ≠ hd.1 := fun he => hty (he ▸ List.mem_cons_self _ _)
        have hty2 : ty ∉ rest.map (fun r => r.1) :=
          fun hin => hty (List.mem_cons_of_mem _ hin)
        rw [qB ty hty2, pD ty hty1]
      · intro p hp
        exact pE p (qC p hp)

theorem sameKey_callback {e : PEntry} {n : EvName} {cb : Callback}
    {cap : Bool} (h : sameKey e n cb cap = true) : e.callback = cb := by
  simp only [sameKey, Bool.and_eq_true, decide_eq_true_eq] at h
  exact h.1.2

theorem onEv_inl_undef_eq (s : Emitter) (n : EvName) (k : Nat) :
    onEv s (.inl n) (.user k) .undefined =
      registrySet
        { s with
          fresh := s.fresh + 1
          target := targetAdd s.target n (.detailPasser s.fresh (.user k))
            false false } n (.user k) (.detailPasser s.fresh (.user k)) := by
  unfold onEv onAddCallback
  simp [optOnce, optCapture, optNativeOnce]

theorem ael_undef_eq (s : Emitter) (n : EvName) (k : Nat) :
    addEventListener s n (.user k) .undefined =
      registrySet
        { s with
          target := targetAdd s.target n (.user k) false false }
        n (.user k) (.user k) := by
  unfold addEventListener
  simp [optOnce, optCapture, optNativeOnce]

/-- Registering a fresh (name, identity) pair with a wrapper of the
non-once shape preserves the well-formedness invariant and changes the
registry lookup of no other pair. -/
theorem register_WF (s : Emitter) (n : EvName) (k : Nat) (w : Callback)
    (fr : Nat) (hwf : WFreg s)
    (hnew : mapGet (regMap s n) (.user k) = none)
    (hfr : s.fresh ≤ fr) (hwb : cbBound w fr)
    (hwshape : w = .user k ∨ ∃ j, w = .detailPasser j (.user k))
    (hnodup : ∀ e ∈ s.target, sameKey e n w false = false) :
    WFreg (registrySet
      { s with
        fresh := fr
        target := targetAdd s.target n w false false } n (.user k) w) ∧
    (∀ ty2 k2, ¬(ty2 = n ∧ k2 = k) →
      mapGet (regMap (registrySet
        { s with
          fresh := fr
          target := targetAdd s.target n w false false } n (.user k) w) ty2)
        (.user k2) = mapGet (regMap s ty2) (.user k2)) := by
  have htadd : targetAdd s.target n w false false =
      s.target ++ [⟨n, w, false, false⟩] :=
    targetAdd_append _ _ _ _ _ hnodup
  set X : Emitter :=
    { s with
      fresh := fr
      target := targetAdd s.target n w false false } with hX
  set R := registrySet X n (.user k) w with hR
  have hXl : X.listeners = s.listeners := rfl
  have hXreg : ∀ ty, regMap X ty = regMap s ty := fun _ => rfl
  have hRt : R.target = s.target ++ [⟨n, w, false, false⟩] := by
    rw [hR, registrySet_target, hX, htadd]
  have hRf : R.fresh = fr := by
    rw [hR, registrySet_fresh]
  have hRn : regMap R n = regMap s n ++ [(.user k, w)] := by
    rw [hR, regMap_registrySet_self, hXreg, mapSet_of_not_found _ _ _ hnew]
  have hRo : ∀ ty2, ty2 ≠ n → regMap R ty2 = regMap s ty2 := by
    intro ty2 h
    rw [hR, regMap_registrySet_other _ _ _ _ _ h, hXreg]
  have htc : ∀ ty2, targetCbsFor R ty2 =
      targetCbsFor s ty2 ++
        (if ty2 = n then [w] else []) := by
    intro ty2
    unfold targetCbsFor
    rw [hRt, List.filter_append, List.map_append]
    by_cases h : ty2 = n
    · simp [h]
    · have hne : ¬(n = ty2) := fun he => h (Eq.symm he)
      simp [h, hne]
  constructor
  · refine ⟨?_, ?_, ?_, ?_, ?_⟩
    · intro ty
      by_cases h : ty = n
      · rw [h, htc n, hRn, List.map_append, hwf.corr n]
        simp
      · rw [htc ty, hRo ty h, hwf.corr ty]
        simp [h]
    · intro p hp
      rw [hRt] at hp
      rcases List.mem_append.mp hp with hp | hp
      · exact hwf.flags p hp
      · simp only [List.mem_singleton] at hp
        rw [hp]
        exact ⟨rfl, rfl⟩
    · intro p hp
      rw [hRt] at hp
      rw [hRf]
      rcases List.mem_append.mp hp with hp | hp
      · exact cbBound_mono (hwf.freshB p hp) hfr
      · simp only [List.mem_singleton] at hp
        rw [hp]
        exact hwb
    · rcases hm : mapGet s.listeners n with _ | m
      · have hk := registrySet_keys_none X n (.user k) w
          (by rw [hXl]; exact hm)
        rw [hR, hk, hXl]
        rw [List.nodup_append]
        refine ⟨hwf.namesNodup, List.nodup_singleton _, ?_⟩
        intro a ha hb
        simp only [List.mem_singleton] at hb
        rw [hb] at ha
        obtain ⟨q, hq, hq1⟩ := List.mem_map.mp ha
        exact mapGet_none_forall s.listeners n hm q hq hq1
      · have hk := registrySet_keys_found X n (.user k) w m
          (by rw [hXl]; exact hm)
        rw [hR, hk, hXl]
        exact hwf.namesNodup
    · intro ty q hq
      by_cases h : ty = n
      · rw [h, hRn] at hq
        rcases List.mem_append.mp hq with hq | hq
        · exact hwf.vals n q hq
        · simp only [List.mem_singleton] at hq
          rw [hq]
          refine ⟨⟨k, rfl⟩, ?_⟩
          rcases hwshape with h2 | ⟨j, h2⟩
          · left; rw [h2]
          · right; exact ⟨j, h2⟩
      · rw [hRo ty h] at hq
        exact hwf.vals ty q hq
  · intro ty2 k2 hne
    by_cases h : ty2 = n
    · have hk2 : k2 ≠ k := fun he => hne ⟨h, he⟩
      rw [h, hRn]
      exact mapGet_append_ne _ _ _ _ (by simp [Ne.symm hk2])
    · rw [hRo ty2 h]

/-- The key of the next registration is not yet present. -/
def notRegistered (s : Emitter) (op : RegOp) : Prop :=
  mapGet (regMap s op.key.1) (.user op.key.2) = none

theorem applyOp_WF (s : Emitter) (op : RegOp) (hwf : WFreg s)
    (hnew : notRegistered s op) :
    WFreg (applyOp s op) ∧
    (∀ op2 : RegOp, op2.key ≠ op.key → notRegistered s op2 →
      notRegistered (applyOp s op) op2) := by
  cases op with
  | onOp ty0 k0 =>
      have hnodup : ∀ e ∈ s.target,
          sameKey e ty0 (.detailPasser s.fresh (.user k0)) false = false := by
        intro e he
        exact sameKey_false_of_cb _ _
          (cbBound_ne_detailPasser (hwf.freshB e he) _)
      obtain ⟨hA, hB⟩ := register_WF s ty0 k0
        (.detailPasser s.fresh (.user k0)) (s.fresh + 1) hwf hnew
        (Nat.le_succ _) ⟨Nat.lt_succ_self _, trivial⟩
        (Or.inr ⟨s.fresh, rfl⟩) hnodup
      have heq : applyOp s (.onOp ty0 k0) =
          registrySet
            { s with
              fresh := s.fresh + 1
              target := targetAdd s.target ty0
                (.detailPasser s.fresh (.user k0)) false false }
            ty0 (.user k0) (.detailPasser s.fresh (.user k0)) := by
        show onEv s (.inl ty0) (.user k0) .undefined = _
        exact onEv_inl_undef_eq s ty0 k0
      rw [heq]
      refine ⟨hA, ?_⟩
      intro op2 hkey hreg2
      unfold notRegistered at hreg2 ⊢
      rw [hB op2.key.1 op2.key.2 (by
        intro ⟨h1, h2⟩
        exact hkey (by
          cases op2 <;> simp only [RegOp.key] at h1 h2 ⊢ <;>
            simp [RegOp.key, h1, h2]))]
      exact hreg2
  | aelOp ty0 k0 =>
      have hnodup : ∀ e ∈ s.target,
          sameKey e ty0 (.user k0) false = false := by
        intro e he
        by_cases hsk : sameKey e ty0 (.user k0) false = true
        · exfalso
          have hname := sameKey_name hsk
          have hcb := sameKey_callback hsk
          have hmem : e.callback ∈ targetCbsFor s ty0 := by
            unfold targetCbsFor
            exact List.mem_map_of_mem _
              (List.mem_filter.mpr ⟨he, by simp [hname]⟩)
          rw [hwf.corr ty0] at hmem
          obtain ⟨q, hq, hq2⟩ := List.mem_map.mp hmem
          obtain ⟨⟨i, hq1⟩, hval⟩ := hwf.vals ty0 q hq
          rcases hval with hval | ⟨j, hval⟩
          · have : q.1 = Callback.user k0 := by
              rw [← hval, hq2, hcb]
            exact mapGet_none_forall _ _ hnew q hq this
          · rw [hval] at hq2
            rw [hcb] at hq2
            exact Callback.noConfusion hq2
        · exact Bool.eq_false_iff.mpr hsk
      obtain ⟨hA, hB⟩ := register_WF s ty0 k0 (.user k0) s.fresh hwf hnew
        (Nat.le_refl _) trivial (Or.inl rfl) hnodup
      have heq : applyOp s (.aelOp ty0 k0) =
          registrySet
            { s with
              fresh := s.fresh
              target := targetAdd s.target ty0 (.user k0) false false }
            ty0 (.user k0) (.user k0) := by
        show addEventListener s ty0 (.user k0) .undefined = _
        rw [ael_undef_eq s ty0 k0]
      rw [heq]
      refine ⟨hA, ?_⟩
      intro op2 hkey hreg2
      unfold notRegistered at hreg2 ⊢
      rw [hB op2.key.1 op2.key.2 (by
        intro ⟨h1, h2⟩
        exact hkey (by
          cases op2 <;> simp only [RegOp.key] at h1 h2 ⊢ <;>
            simp [RegOp.key, h1, h2]))]
      exact hreg2

theorem WFreg_init : WFreg initEmitter := by
  refine ⟨?_, ?_, ?_, ?_, ?_⟩ <;>
    simp [targetCbsFor, regMap, mapGet, initEmitter]

theorem applyOps_WF : ∀ (ops : List RegOp) (s : Emitter), WFreg s →
    (∀ op ∈ ops, notRegistered s op) →
    ((ops.map RegOp.key).Nodup) →
    WFreg (applyOps s ops) := by
  intro ops
  induction ops with
  | nil => intro s hwf _ _; exact hwf
  | cons op rest ih =>
      intro s hwf hnotreg hnd
      rw [List.map_cons, List.nodup_cons] at hnd
      obtain ⟨hA, hB⟩ := applyOp_WF s op hwf
        (hnotreg op (List.mem_cons_self _ _))
      have : applyOps s (op :: rest) = applyOps (applyOp s op) rest := rfl
      rw [this]
      refine ih (applyOp s op) hA ?_ hnd.2
      intro op2 hop2
      refine hB op2 ?_ (hnotreg op2 (List.mem_cons_of_mem _ hop2))
      intro he
      exact hnd.1 (he ▸ List.mem_map_of_mem RegOp.key hop2)

/-! ## Claim theorems -/

/-- C1: on an emitter with no listeners for `n`, after `on(n, f)` a call
`emit(n, v)` invokes `f` with `v` exactly once (the log grows by exactly
the one entry), synchronously before `emit` returns (the model is the
synchronous dispatch itself); with two listeners registered for `n`, one
`emit` invokes them in registration order. -/
theorem claim1_emit_delivers_in_order (s : Emitter) (n : EvName)
    (k1 k2 : Nat) (v : Value)
    (h : s.target.filter (fun p => decide (p.name = n)) = []) :
    (emit (onEv s (.inl n) (.user k1) .undefined) n v).log =
      s.log ++ [(k1, CbArg.detailArg v)] ∧
    (emit (onEv (onEv s (.inl n) (.user k1) .undefined) (.inl n) (.user k2)
        .undefined) n v).log =
      s.log ++ [(k1, CbArg.detailArg v), (k2, CbArg.detailArg v)] := by
  have hname := name_ne_of_filter_nil h
  refine ⟨emit_on_single s n k1 v h, ?_⟩
  have ht1 := onEv_inl_undef_target s n k1
    (fun e he => sameKey_false_of_name _ _ (hname e he))
  have hf1 := onEv_inl_undef_fresh s n k1
  have hl1 := onEv_inl_undef_log s n k1
  set s1 := onEv s (.inl n) (.user k1) .undefined with hs1
  have hne1 : ∀ e ∈ s1.target,
      sameKey e n (.detailPasser s1.fresh (.user k2)) false = false := by
    intro e he
    rw [ht1] at he
    rcases List.mem_append.mp he with he | he
    · exact sameKey_false_of_name _ _ (hname e he)
    · have he2 : e = ⟨n, .detailPasser s.fresh (.user k1), false, false⟩ := by
        simpa using he
      refine sameKey_false_of_cb _ _ ?_
      rw [he2, hf1]
      simp [Nat.ne_of_lt (Nat.lt_succ_self s.fresh)]
  have ht2 := onEv_inl_undef_target s1 n k2 hne1
  have hl2 := onEv_inl_undef_log s1 n k2
  set s2 := onEv s1 (.inl n) (.user k2) .undefined with hs2
  have hfilter : s2.target.filter (fun p => decide (p.name = n)) =
      [⟨n, .detailPasser s.fresh (.user k1), false, false⟩,
       ⟨n, .detailPasser s1.fresh (.user k2), false, false⟩] := by
    rw [ht2, ht1, List.filter_append, List.filter_append, h]
    simp
  have hdisp := dispatchSnapshot_plain (createEvent n v)
    [⟨n, .detailPasser s.fresh (.user k1), false, false⟩,
     ⟨n, .detailPasser s1.fresh (.user k2), false, false⟩] s2
    (by intro p hp
        rw [ht2, ht1]
        simp only [List.mem_cons, List.not_mem_nil, or_false] at hp
        rcases hp with hp | hp <;> simp [hp])
    (by intro p hp
        simp only [List.mem_cons, List.not_mem_nil, or_false] at hp
        rcases hp with hp | hp <;> rw [hp]
        · exact ⟨⟨s.fresh, k1, rfl⟩, rfl⟩
        · exact ⟨⟨s1.fresh, k2, rfl⟩, rfl⟩)
  rw [emit_eq_dispatch, hfilter, hdisp, hl2, hl1]
  rfl

/-- C1 witness: the fresh emitter, name a, identities 0 and 1, value x. -/
theorem claim1_witness :
    initEmitter.target.filter (fun p => decide (p.name = "a")) = [] ∧
    ((emit (onEv initEmitter (.inl "a") (.user 0) .undefined) "a"
        (.str "x")).log =
      initEmitter.log ++ [(0, CbArg.detailArg (.str "x"))] ∧
    (emit (onEv (onEv initEmitter (.inl "a") (.user 0) .undefined) (.inl "a")
        (.user 1) .undefined) "a" (.str "x")).log =
      initEmitter.log ++ [(0, CbArg.detailArg (.str "x")),
        (1, CbArg.detailArg (.str "x"))]) :=
  ⟨rfl, claim1_emit_delivers_in_order initEmitter "a" 0 1 (.str "x") rfl⟩

/-- C2 counterexample: after `once("a", f)` and one `emit("a", "x")` the
callback fired once, yet the registry entry for the identity is still
present and `getListeners("a")` is not empty — the claim that the entry is
removed from the emitter registry after the first invocation is false. -/
theorem claim2_counterexample :
    countLog 0 ((emit (once initEmitter (.inl "a") (.user 0) .undefined) "a"
      (.str "x")).log) = 1 ∧
    mapGet (regMap (emit (once initEmitter (.inl "a") (.user 0) .undefined) "a"
      (.str "x")) "a") (.user 0) ≠ none ∧
    getListeners (emit (once initEmitter (.inl "a") (.user 0) .undefined) "a"
      (.str "x")) "a" ≠ [] := by decide

/-- C2 amended: after `once(n, f)` the callback fires exactly once across
any nonempty sequence of `emit(n, ·)` calls and at most once across any
sequence (the platform native once flag removes the platform registration
before the first invocation, so the platform side is clean: the target
list is empty afterwards); but the registry entry for `f` is never
removed, so `getListeners(n)` keeps the stale once wrapper. -/
theorem claim2_once_at_most_once_registry_stale (n : EvName) (k : Nat)
    (v : Value) (vs ws : List Value) :
    countLog k ((emitSeq (once initEmitter (.inl n) (.user k) .undefined) n
      (v :: vs)).log) = 1 ∧
    mapGet (regMap (emitSeq (once initEmitter (.inl n) (.user k) .undefined) n
      (v :: vs)) n) (.user k) =
      some (.onceRemover 1 n (.detailPasser 0 (.user k))) ∧
    (emitSeq (once initEmitter (.inl n) (.user k) .undefined) n
      (v :: vs)).target = [] ∧
    countLog k ((emitSeq (once initEmitter (.inl n) (.user k) .undefined) n
      ws).log) ≤ 1 := by
  have hfire : emitSeq (once initEmitter (.inl n) (.user k) .undefined) n
      (v :: vs) =
      { target := [],
        listeners :=
          [(n, [(.user k, .onceRemover 1 n (.detailPasser 0 (.user k)))])],
        heap := [{ once := true, capture := false }],
        fresh := 2, log := [(k, CbArg.detailArg v)] } := by
    rw [emitSeq, emit_once_init]
    exact emitSeq_noop _ _ _ rfl
  refine ⟨?_, ?_, ?_, ?_⟩
  · rw [hfire]
    simp [countLog]
  · rw [hfire]
    simp [regMap, mapGet]
  · rw [hfire]
  · cases ws with
    | nil =>
        rw [emitSeq, once_init_compute]
        simp [countLog]
    | cons w rest =>
        have hfire2 : emitSeq (once initEmitter (.inl n) (.user k) .undefined) n
            (w :: rest) =
            { target := [],
              listeners := [(n,
                [(.user k, .onceRemover 1 n (.detailPasser 0 (.user k)))])],
              heap := [{ once := true, capture := false }],
              fresh := 2, log := [(k, CbArg.detailArg w)] } := by
          rw [emitSeq, emit_once_init]
          exact emitSeq_noop _ _ _ rfl
        rw [hfire2]
        simp [countLog]

/-- C4 counterexample: registering the same identity twice with
`on("a", f); on("a", f)` leaves a single registry entry, but one
`emit("a", "x")` delivers to `f` twice, not once. -/
theorem claim4_counterexample :
    countLog 0 ((emit (onEv (onEv initEmitter (.inl "a") (.user 0) .undefined)
      (.inl "a") (.user 0) .undefined) "a" (.str "x")).log) = 2 ∧
    (regMap (onEv (onEv initEmitter (.inl "a") (.user 0) .undefined)
      (.inl "a") (.user 0) .undefined) "a").length = 1 := by decide

/-- C4 amended: re-registering the same identity keeps at most one wrapper
in the registry (the map entry is overwritten in place with the newest
wrapper), but each `on` call registered a fresh platform wrapper, so a
subsequent `emit(n, v)` delivers to `f` once per `on` call — twice after
two calls, not once. -/
theorem claim4_duplicate_on_double_delivery (n : EvName) (k : Nat)
    (v : Value) :
    (regMap (onEv (onEv initEmitter (.inl n) (.user k) .undefined) (.inl n)
      (.user k) .undefined) n) = [(.user k, .detailPasser 1 (.user k))] ∧
    (emit (onEv (onEv initEmitter (.inl n) (.user k) .undefined) (.inl n)
      (.user k) .undefined) n v).log =
      [(k, CbArg.detailArg v), (k, CbArg.detailArg v)] := by
  have h1 : onEv initEmitter (.inl n) (.user k) .undefined =
      { target := [⟨n, .detailPasser 0 (.user k), false, false⟩],
        listeners := [(n, [(.user k, .detailPasser 0 (.user k))])],
        heap := [], fresh := 1, log := [] } := by
    unfold onEv onAddCallback
    simp [optOnce, optCapture, optNativeOnce, targetAdd, registrySet,
      getOrCreateListeners, regMap, mapGet, mapSet, initEmitter]
  have h2 : onEv (onEv initEmitter (.inl n) (.user k) .undefined) (.inl n)
      (.user k) .undefined =
      { target := [⟨n, .detailPasser 0 (.user k), false, false⟩,
          ⟨n, .detailPasser 1 (.user k), false, false⟩],
        listeners := [(n, [(.user k, .detailPasser 1 (.user k))])],
        heap := [], fresh := 2, log := [] } := by
    rw [h1]
    unfold onEv onAddCallback
    simp [optOnce, optCapture, optNativeOnce, targetAdd, registrySet,
      getOrCreateListeners, regMap, mapGet, mapSet, sameKey]
  refine ⟨by rw [h2]; simp [regMap, mapGet], ?_⟩
  rw [h2, emit_eq_dispatch]
  have hdisp := dispatchSnapshot_plain (createEvent n v)
    [⟨n, .detailPasser 0 (.user k), false, false⟩,
     ⟨n, .detailPasser 1 (.user k), false, false⟩]
    { target := [⟨n, .detailPasser 0 (.user k), false, false⟩,
        ⟨n, .detailPasser 1 (.user k), false, false⟩],
      listeners := [(n, [(.user k, .detailPasser 1 (.user k))])],
      heap := [], fresh := 2, log := [] }
    (by intro p hp; simpa using hp)
    (by intro p hp
        simp only [List.mem_cons, List.not_mem_nil, or_false] at hp
        rcases hp with hp | hp <;> rw [hp]
        · exact ⟨⟨0, k, rfl⟩, rfl⟩
        · exact ⟨⟨1, k, rfl⟩, rfl⟩)
  have hfilter : List.filter (fun p => decide (p.name = n))
      [(⟨n, .detailPasser 0 (.user k), false, false⟩ : PEntry),
       ⟨n, .detailPasser 1 (.user k), false, false⟩] =
      [⟨n, .detailPasser 0 (.user k), false, false⟩,
       ⟨n, .detailPasser 1 (.user k), false, false⟩] := by simp
  show (dispatchSnapshot (createEvent n v)
      (List.filter (fun p => decide (p.name = n))
        [(⟨n, .detailPasser 0 (.user k), false, false⟩ : PEntry),
         ⟨n, .detailPasser 1 (.user k), false, false⟩]) _).log = _
  rw [hfilter, hdisp]
  simp [plainId, createEvent]

/-- C6 counterexample: after `once("a", f)` (never fired) and `off()` with
no arguments, `getListeners()` is the empty mapping, yet `emit("a", "x")`
still invokes `f`: `off` resolved the identity to the `onceRemover`
wrapper stored in the registry, but the platform holds the `detailPasser`
wrapper, so the platform registration survived. -/
theorem claim6_counterexample :
    off (once initEmitter (.inl "a") (.user 0) .undefined) none none =
      .ok { target := [⟨"a", .detailPasser 0 (.user 0), false, true⟩],
            listeners := [],
            heap := [{ once := true, capture := false }],
            fresh := 2, log := [] } ∧
    getListenersAll
      { target := [⟨"a", .detailPasser 0 (.user 0), false, true⟩],
        listeners := [],
        heap := [{ once := true, capture := false }],
        fresh := 2,
        log := [] } = [] ∧
    (emit { target := [⟨"a", .detailPasser 0 (.user 0), false, true⟩],
            listeners := [],
            heap := [{ once := true, capture := false }],
            fresh := 2, log := [] } "a" (.str "x")).log =
      [(0, CbArg.detailArg (.str "x"))] :=
  ⟨rfl, by decide, by decide⟩

/-- C6 amended: after `off()` with no arguments `getListeners()` returns an
empty mapping for every reachable state; and when every registration was a
non-once `on` or `addEventListener` with pairwise-distinct
(name, identity) pairs, the platform is empty too, so a subsequent `emit`
on any name invokes no callback and leaves the state unchanged.  (A
pending once registration — and likewise a duplicate `on` registration of
one identity — leaves a platform wrapper that survives `off()` and still
fires, see the counterexample.) -/
theorem claim6_off_all_clears (ops : List RegOp)
    (h : (ops.map RegOp.key).Nodup) :
    off (applyOps initEmitter ops) none none =
      .ok (offBranchAll (applyOps initEmitter ops) none) ∧
    (offBranchAll (applyOps initEmitter ops) none).listeners = [] ∧
    getListenersAll (offBranchAll (applyOps initEmitter ops) none) = [] ∧
    (offBranchAll (applyOps initEmitter ops) none).target = [] ∧
    (∀ ty v, emit (offBranchAll (applyOps initEmitter ops) none) ty v =
      offBranchAll (applyOps initEmitter ops) none) := by
  have hwf := applyOps_WF ops initEmitter WFreg_init
    (fun op _ => rfl) h
  set S := applyOps initEmitter ops with hS
  obtain ⟨A, B, C⟩ := offAllFold S.listeners S
    (fun p hp => mapGet_some_of_mem_nodup _ p hwf.namesNodup hp)
    hwf.namesNodup hwf.corr (fun p hp => (hwf.flags p hp).1)
  set FD := S.listeners.foldl (fun acc p => p.2.foldl (fun acc2 q =>
    doRemove none acc2 p.1 (some q.1)) acc) S with hFD
  have hempty : ∀ ty, targetCbsFor FD ty = [] := by
    intro ty
    by_cases hmem : ty ∈ S.listeners.map (fun p => p.1)
    · obtain ⟨p, hp, hp1⟩ := List.mem_map.mp hmem
      rw [← hp1]
      exact A p hp
    · rw [B ty hmem]
      rcases hm : mapGet S.listeners ty with _ | m
      · rw [hwf.corr ty]
        unfold regMap
        rw [hm]
        rfl
      · exact absurd (mapGet_some_mem_keys _ _ _ hm) hmem
  have htgt : FD.target = [] := by
    rw [List.eq_nil_iff_forall_not_mem]
    intro p hp
    have hpc : p.callback ∈ targetCbsFor FD p.name := by
      unfold targetCbsFor
      exact List.mem_map_of_mem _ (List.mem_filter.mpr ⟨hp, by simp⟩)
    rw [hempty p.name] at hpc
    exact absurd hpc (List.not_mem_nil _)
  have htgt2 : (offBranchAll S none).target = [] := htgt
  refine ⟨rfl, rfl, rfl, htgt2, ?_⟩
  intro ty v
  exact emit_noop _ ty v (by rw [htgt2]; rfl)

/-- C6 witness: two distinct non-once registrations, then `off()`. -/
theorem claim6_witness :
    (([RegOp.onOp "a" 0, RegOp.aelOp "b" 1].map RegOp.key).Nodup) ∧
    (off (applyOps initEmitter [RegOp.onOp "a" 0, RegOp.aelOp "b" 1]) none
        none =
      .ok (offBranchAll
        (applyOps initEmitter [RegOp.onOp "a" 0, RegOp.aelOp "b" 1]) none) ∧
    (offBranchAll (applyOps initEmitter
      [RegOp.onOp "a" 0, RegOp.aelOp "b" 1]) none).listeners = [] ∧
    getListenersAll (offBranchAll (applyOps initEmitter
      [RegOp.onOp "a" 0, RegOp.aelOp "b" 1]) none) = [] ∧
    (offBranchAll (applyOps initEmitter
      [RegOp.onOp "a" 0, RegOp.aelOp "b" 1]) none).target = [] ∧
    (∀ ty v, emit (offBranchAll (applyOps initEmitter
        [RegOp.onOp "a" 0, RegOp.aelOp "b" 1]) none) ty v =
      offBranchAll (applyOps initEmitter
        [RegOp.onOp "a" 0, RegOp.aelOp "b" 1]) none)) :=
  ⟨by decide, claim6_off_all_clears [RegOp.onOp "a" 0, RegOp.aelOp "b" 1]
    (by decide)⟩

/-- C9: `emitReserved` performs exactly the same runtime dispatch as the
public `emit` (it is `super.emit`, no runtime check of the name), and a
reserved name is deliverable to a listener registered through the normal
`on` surface. -/
theorem claim9_emitReserved_is_emit (s : Emitter) (ty : EvName) (v : Value)
    (n : EvName) (k : Nat) (v2 : Value) :
    emitReserved s ty v = emit s ty v ∧
    reservedPublicEmit s ty v = emit s ty v ∧
    (emitReserved (onEv initEmitter (.inl n) (.user k) .undefined) n v2).log =
      [(k, CbArg.detailArg v2)] := by
  refine ⟨rfl, rfl, ?_⟩
  show (emit (onEv initEmitter (.inl n) (.user k) .undefined) n v2).log = _
  rw [emit_on_single initEmitter n k v2 rfl]
  rfl

/-- C10: `once(n, f, o)` mutates the caller-supplied options record `o` in
place: after the call the record at the caller's reference has `once` set
to true, its other field untouched, and no copy was made (the heap keeps
its length, and it is the cell at the caller's reference that changed). -/
theorem claim10_once_mutates_callers_options (s : Emitter) (n : EvName)
    (k r : Nat) (h : r < s.heap.length) :
    (heapRead (once s (.inl n) (.user k) (.ref r)) r).once = true ∧
    (heapRead (once s (.inl n) (.user k) (.ref r)) r).capture =
      (heapRead s r).capture ∧
    (once s (.inl n) (.user k) (.ref r)).heap.length = s.heap.length := by
  have hheap : (once s (.inl n) (.user k) (.ref r)).heap =
      s.heap.set r { heapRead s r with once := true } := by
    unfold once onceDefaultOptions onceAssign
    simp [onEv_heap]
  have hlen : (once s (.inl n) (.user k) (.ref r)).heap.length =
      s.heap.length := by rw [hheap, List.length_set]
  have hcell : (once s (.inl n) (.user k) (.ref r)).heap[r]? =
      some { heapRead s r with once := true } := by
    rw [hheap]
    exact List.getElem?_set_eq_of_lt _ h
  refine ⟨?_, ?_, hlen⟩ <;>
    simp [heapRead, List.getD_eq_getElem?_getD, hcell]

/-- C10 witness: a concrete heap cell with `capture` set and `once` unset
is mutated to `once := true` with `capture` preserved. -/
theorem claim10_witness :
    0 < ({ initEmitter with
        heap := [{ once := false, capture := true }] } : Emitter).heap.length ∧
    ((heapRead (once { initEmitter with
        heap := [{ once := false, capture := true }] } (.inl "a") (.user 0)
        (.ref 0)) 0).once = true ∧
     (heapRead (once { initEmitter with
        heap := [{ once := false, capture := true }] } (.inl "a") (.user 0)
        (.ref 0)) 0).capture =
       (heapRead { initEmitter with
        heap := [{ once := false, capture := true }] } 0).capture ∧
     (once { initEmitter with
        heap := [{ once := false, capture := true }] } (.inl "a") (.user 0)
        (.ref 0)).heap.length =
       ({ initEmitter with
        heap := [{ once := false, capture := true }] } : Emitter).heap.length) :=
  ⟨by decide,
   claim10_once_mutates_callers_options _ "a" 0 0 (by decide)⟩

/-- C3 (supporting theorem for the code bug): for any requested positive
timeout `t + 1`, `pull` passes delay 0 — not `t + 1` — to `setTimeout`,
and when that timer fires, the handler leaves the emitter untouched: the
once-listener registered by the `pull` call is still on the platform. -/
theorem claim3_pull_timer_delay_and_leak (ty : EvName) (t : Nat) :
    (pull initEmitter ty (some (t + 1))).timerDelay = some 0 ∧
    (pull initEmitter ty (some (t + 1))).timerDelay ≠ some (t + 1) ∧
    (pullTimeoutFire (pull initEmitter ty (some (t + 1)))).emitter =
      (pull initEmitter ty (some (t + 1))).emitter ∧
    (pullTimeoutFire (pull initEmitter ty (some (t + 1)))).emitter.target =
      [⟨ty, .detailPasser 1 (.pullResolver 0), false, true⟩] := by
  have hp : pull initEmitter ty (some (t + 1)) =
      { emitter := once { initEmitter with fresh := 1 } (.inl ty)
          (.pullResolver 0) OptionsArg.undefined,
        resolverCb := .pullResolver 0, timerDelay := some 0,
        timerCleared := false } := by
    unfold pull
    simp [initEmitter]
  rw [hp]
  refine ⟨rfl, by simp, rfl, ?_⟩
  unfold once onceDefaultOptions onceAssign onEv onAddCallback
  simp [optOnce, optCapture, optNativeOnce, heapRead, initEmitter,
    registrySet_target, targetAdd, pullTimeoutFire]

/-- C7 counterexample: `off("", f)` is one of the five defined shapes
(single name with callback) — the name is the empty string, a valid event
name with a registered listener here — yet it raises the fatal error. -/
theorem claim7_counterexample :
    raisesError (off (onEv initEmitter (.inl "") (.user 0) .undefined)
      (some (.inl "")) (some (.user 0))) = true := by decide

/-- C7 amended: `off` raises the fatal `InvalidRemovalArguments` error
exactly when its first argument is JS-falsy (absent, or the single name is
the empty string) while a callback is supplied.  In particular
`off(undefined, callback)` raises, and the five defined shapes never raise
— except that the (name, callback) shape with the empty-string name is
mistaken for the missing-name shape by the truthiness test and raises. -/
theorem claim7_amended (s : Emitter)
    (types : Option (Sum EvName (List EvName))) (callback : Option Callback) :
    raisesError (off s types callback) =
      (offTypesFalsy types && callback.isSome) := by
  rcases types with _ | (ty | l)
  · rcases callback with _ | cb <;> simp [off, offTypesFalsy, raisesError]
  · rcases callback with _ | cb <;> by_cases h : ty = "" <;>
      simp [off, offTypesFalsy, raisesError, h]
  · rcases callback with _ | cb <;> simp [off, offTypesFalsy, raisesError]

/-- C8 counterexample: `off(n, f)` for an identity `f` that is not
registered for `n` is claimed to never raise; with the empty-string name
it raises the fatal error instead of being a silent no-op. -/
theorem claim8_counterexample :
    off initEmitter (some (.inl "")) (some (.user 0)) =
      .error "Unknown case for removing event!" := rfl

/-- C8 amended: removing an unknown identity is an idempotent silent
no-op: `removeEventListener(n, f)` leaves the state unchanged for every
name, and `off(n, f)` does so without raising for every nonempty name
(the empty-string name raises, see the counterexample). -/
theorem claim8_amended (s : Emitter) (ty : EvName) (cb : Callback)
    (h : mapGet (regMap s ty) cb = none) :
    removeEventListener s ty cb false = s ∧
    (ty ≠ "" → off s (some (.inl ty)) (some cb) = .ok s) := by
  have h1 := removeEventListener_not_found s ty cb false h
  refine ⟨h1, fun hne => ?_⟩
  simp [off, offTypesFalsy, hne, offBranchSpecific, doRemove, h1]

/-- C8 witness: the unknown identity `user 0` on a fresh emitter. -/
theorem claim8_witness :
    mapGet (regMap initEmitter "a") (Callback.user 0) = none ∧
    (removeEventListener initEmitter "a" (Callback.user 0) false =
        initEmitter ∧
      ("a" ≠ "" →
        off initEmitter (some (.inl "a")) (some (Callback.user 0)) =
          .ok initEmitter)) :=
  ⟨rfl, claim8_amended initEmitter "a" (Callback.user 0) rfl⟩

/-- C5 counterexample: after `on("a", f)` the set returned by
`getListeners("a")` is the singleton holding the internal dispatch
wrapper, and does not contain the user identity `f` itself. -/
theorem claim5_counterexample :
    Callback.user 0 ∉
      getListeners (onEv initEmitter (.inl "a") (.user 0) .undefined) "a" ∧
    getListeners (onEv initEmitter (.inl "a") (.user 0) .undefined) "a" =
      [Callback.detailPasser 0 (.user 0)] := by decide

/-- C5 amended: `getListeners` returns the values of the registry map —
the dispatch wrappers — not the user identities: after `on(n, f)` it
holds the `detailPasser` wrapper and excludes `f`; it contains `f` itself
exactly in the `addEventListener`-without-once case, where identity and
wrapper coincide; `getListeners()` maps each name to its wrapper set. -/
theorem claim5_amended (n : EvName) (k : Nat) :
    getListeners (onEv initEmitter (.inl n) (.user k) .undefined) n =
      [Callback.detailPasser 0 (.user k)] ∧
    Callback.user k ∉
      getListeners (onEv initEmitter (.inl n) (.user k) .undefined) n ∧
    getListeners (addEventListener initEmitter n (.user k) .undefined) n =
      [Callback.user k] ∧
    getListenersAll (onEv initEmitter (.inl n) (.user k) .undefined) =
      [(n, [Callback.detailPasser 0 (.user k)])] := by
  have hon : onEv initEmitter (.inl n) (.user k) .undefined =
      { target := [⟨n, .detailPasser 0 (.user k), false, false⟩],
        listeners := [(n, [(.user k, .detailPasser 0 (.user k))])],
        heap := [], fresh := 1, log := [] } := by
    unfold onEv onAddCallback
    simp [optOnce, optCapture, optNativeOnce, targetAdd, registrySet,
      getOrCreateListeners, regMap, mapGet, mapSet, initEmitter]
  have hael : addEventListener initEmitter n (.user k) .undefined =
      { target := [⟨n, .user k, false, false⟩],
        listeners := [(n, [(.user k, .user k)])],
        heap := [], fresh := 0, log := [] } := by
    unfold addEventListener
    simp [optOnce, optCapture, optNativeOnce, targetAdd, registrySet,
      getOrCreateListeners, regMap, mapGet, mapSet, initEmitter]
  rw [hon, hael]
  refine ⟨?_, ?_, ?_, ?_⟩ <;>
    simp [getListeners, getListenersAll, regMap, mapGet, dedupKeepFirst]

end Evtemitter
